import Mathlib

/-!
Verification of the ProxyFS core filesystem-semantics layer.

This file gives a shallow embedding of the local lock manager (dlm/llm.go)
and of the filesystem operations layer (fs/api_internal.go), and proves or
refutes the frozen claims about them.  Machine integers (Go uint64) are
modelled as Nat with explicit reduction mod 2^64 at the operations where Go
wraps.  Go panics are modelled as Option.none results.  Collaborator calls
(the inode manager, the logger, the stats sink) are modelled as oracle
parameters, since they are out of scope by the specification.
-/

/-- 2^64, the modulus of Go's uint64 arithmetic. -/
def U64 : Nat := 2 ^ 64

/-! ## Local lock manager (dlm/llm.go) -/

/-- dlm.CallerID: an opaque token identifying one logical calling context. -/
abbrev CallerID := Nat

/-- dlm.lockState (llm.go lines 31-38). -/
inductive LockState where
  | nilType
  | sharedState
  | exclusiveState
  | staleState
deriving DecidableEq, Repr

/-- dlm.localLockRequest (llm.go lines 24-29).  The condition variable and the
wakeUp flag are not part of the sequential model: a request that is granted
by a grant pass is reported in the grant list instead of being signalled. -/
structure LocalLockRequest where
  requestedState : LockState
  lockCallerID : CallerID
deriving DecidableEq, Repr

/-- dlm.localLockTrack (llm.go lines 14-22), minus the debugging lockId and
the mutex.  `owners` and `waiters` are the Go uint64 counters; `waitReqQ` is
the FIFO wait queue front-first. -/
structure LocalLockTrack where
  state : LockState
  owners : Nat
  waiters : Nat
  listOfOwners : List CallerID
  waitReqQ : List LocalLockRequest
deriving DecidableEq, Repr

/-- The state/owners/counter part of a track threaded through the grant-pass
loop of processLocalQ. -/
structure TrackCore where
  state : LockState
  owners : Nat
  listOfOwners : List CallerID
deriving DecidableEq, Repr

/-- dlm.grantAndSignal (llm.go lines 166-172): sets the track state to the
requested state, appends the caller to the owner list, and increments the
uint64 owner counter.  The Broadcast is modelled by the caller recording the
request in its grant list. -/
def grantAndSignal (c : TrackCore) (req : LocalLockRequest) : TrackCore :=
  { state := req.requestedState,
    owners := (c.owners + 1) % U64,
    listOfOwners := c.listOfOwners ++ [req.lockCallerID] }

/-- The `for track.waitReqQ.Len() > 0` loop of dlm.processLocalQ (llm.go
lines 192-214).  Returns the updated core, the remaining queue, and the
callers granted (in grant order).  A write (exclusive) request at the head is
granted only when the state is stale, and the pass then returns; a write
request at the head otherwise is pushed back on the front and the pass
returns; any other request at the head is granted and the pass continues. -/
def processLocalQLoop (c : TrackCore) :
    List LocalLockRequest → TrackCore × List LocalLockRequest × List CallerID
  | [] => (c, [], [])
  | req :: rest =>
    if req.requestedState = LockState.exclusiveState then
      if c.state = LockState.staleState then
        (grantAndSignal c req, rest, [req.lockCallerID])
      else
        (c, req :: rest, [])
    else
      let c' := grantAndSignal c req
      let out := processLocalQLoop c' rest
      (out.1, out.2.1, req.lockCallerID :: out.2.2)

/-- dlm.processLocalQ (llm.go lines 177-215): if the queue is empty or the
lock is held exclusively there is nothing to do; otherwise run the grant
loop.  Returns the updated track and the list of granted callers. -/
def processLocalQ (t : LocalLockTrack) : LocalLockTrack × List CallerID :=
  if t.waitReqQ = [] then (t, [])
  else if t.state = LockState.exclusiveState then (t, [])
  else
    let out := processLocalQLoop ⟨t.state, t.owners, t.listOfOwners⟩ t.waitReqQ
    ({ t with
        state := out.1.state,
        owners := out.1.owners,
        listOfOwners := out.1.listOfOwners,
        waitReqQ := out.2.1 },
      out.2.2)

/-- dlm.removeFromListOfOwners (llm.go lines 113-123), modelling the effect
the caller observes on track.listOfOwners.  The Go function receives the
slice header by value and executes
`listOfOwners = append(listOfOwners[:i], listOfOwners[i+1:]...)`: the append
shifts the elements after position i one slot left inside the shared backing
array, but the caller's slice keeps its original length, so the caller
observes the element at i removed, later elements shifted left, and the final
slot still holding the previous last element.  When the caller is not in the
list the Go function panics, modelled as none. -/
def removeFromListOfOwners (l : List CallerID) (callerID : CallerID) :
    Option (List CallerID) :=
  match l.findIdx? (fun id => id = callerID) with
  | none => none
  | some i =>
    match l.getLast? with
    | none => none
    | some z => some (l.eraseIdx i ++ [z])

/-- dlm.callerInListOfOwners (llm.go lines 126-135). -/
def callerInListOfOwners (l : List CallerID) (callerID : CallerID) : Bool :=
  l.any (fun id => id = callerID)

/-- The global map key → track (dlm globals.localLockMap), restricted to the
association-list view the claims need.  Lock ids are modelled as Nat. -/
abbrev LockID := Nat

abbrev LockMap := List (LockID × LocalLockTrack)

def lookupTrack (m : LockMap) (lockID : LockID) : Option LocalLockTrack :=
  match m.find? (fun p => p.1 = lockID) with
  | none => none
  | some p => some p.2

def storeTrack (m : LockMap) (lockID : LockID) (t : LocalLockTrack) : LockMap :=
  if (m.find? (fun p => p.1 = lockID)).isSome then
    m.map (fun p => if p.1 = lockID then (lockID, t) else p)
  else
    m ++ [(lockID, t)]

def deleteTrack (m : LockMap) (lockID : LockID) : LockMap :=
  m.filter (fun p => ¬ p.1 = lockID)

/-- dlm.RWLockStruct.commonLock (llm.go lines 217-271) in the blocking
(try = false) form, as one step of a sequential trace: look up or create the
track, enqueue the request, increment waiters, and run the grant pass.  Each
caller the grant pass wakes runs to its `track.waiters--` before the next
trace step, so the waiter counter is decremented here once per grant
(llm.go lines 259-268).  Returns the new map and the granted callers. -/
def commonLock (m : LockMap) (lockID : LockID) (callerID : CallerID)
    (requestedState : LockState) : LockMap × List CallerID :=
  let track :=
    match lookupTrack m lockID with
    | some t => t
    | none =>
      { state := LockState.staleState, owners := 0, waiters := 0,
        listOfOwners := [], waitReqQ := [] }
  let track :=
    { track with
        waitReqQ := track.waitReqQ ++ [⟨requestedState, callerID⟩],
        waiters := (track.waiters + 1) % U64 }
  let out := processLocalQ track
  let track' := { out.1 with waiters := out.1.waiters - out.2.length }
  (storeTrack m lockID track', out.2)

/-- dlm.RWLockStruct.unlock (llm.go lines 274-315).  none models the two Go
panics: the lock id is absent from the map (line 280), or the releasing
caller is not in the owner list (removeFromListOfOwners, line 122).  The
uint64 counter decrement `track.owners--` wraps mod 2^64; the subsequent
`track.owners < 0` guard (line 303) can never fire on a uint64 and is dead
code, so it has no counterpart here.  When the delete-from-map condition at
line 290 held, the track's further mutations are invisible through the map,
matching the Go code which keeps mutating the detached track. -/
def unlock (m : LockMap) (lockID : LockID) (callerID : CallerID) :
    Option (LockMap × List CallerID) :=
  match lookupTrack m lockID with
  | none => none
  | some track =>
    let deleted := track.owners = 1 ∧ track.waiters = 0
    let owners' := (track.owners + (U64 - 1)) % U64
    match removeFromListOfOwners track.listOfOwners callerID with
    | none => none
    | some lo' =>
      let state' := if owners' = 0 then LockState.staleState else track.state
      let track' :=
        { track with owners := owners', listOfOwners := lo', state := state' }
      let out := processLocalQ track'
      let track'' := { out.1 with waiters := out.1.waiters - out.2.length }
      if deleted then some (deleteTrack m lockID, out.2)
      else some (storeTrack m lockID track'', out.2)

/-! ## Byte-range advisory locks (fs/api_internal.go, Flock, lines 200-306) -/

/-- The lock type of a byte-range lock record: syscall.F_RDLCK, F_WRLCK,
F_UNLCK. -/
inductive FlockType where
  | rdlck
  | wrlck
  | unlck
deriving DecidableEq, Repr

/-- Modelled from the spec: the byte-range lock record
`{pid, start, length, type}` (§3); fs.FlockStruct itself is declared outside
the given sources, and Flock reads exactly the fields Pid, Start, Len, Type.
Start and Len are Go uint64 values (callers keep them below 2^64). -/
structure FlockStruct where
  pid : Nat
  start : Nat
  len : Nat
  type : FlockType
deriving DecidableEq, Repr

/-- The endpoint of a record as Flock computes it (lines 247-252, 259-265):
`^uint64(0)` when Len is 0, otherwise the uint64 sum Start + Len. -/
def flockEnd (f : FlockStruct) : Nat :=
  if f.len = 0 then U64 - 1 else (f.start + f.len) % U64

/-- Outcome of the conflict-scan loop of Flock (lines 257-292). -/
inductive FlockScan where
  | conflict (e : FlockStruct)
  | identical (e : FlockStruct)
  | insertEarly
  | panicNil
  | insertEnd
deriving DecidableEq, Repr

/-- The `for e := flockList.Front()` loop of Flock (lines 257-292).
`haveMark` records whether insertElm has been set (line 271).  An element
whose end is below the new start is skipped (line 267).  An element whose
start exceeds the request's end stops the scan with an in-order insert
(line 275); if insertElm is still nil there, Go's list.InsertBefore
dereferences the nil mark and the call panics (modelled as panicNil).  A
deep-equal element is returned idempotently (line 282); then an element with
either side a write lock is a conflict (line 287); otherwise the loop
continues. -/
def flockScanGo (req : FlockStruct) (lockEnd : Nat) (haveMark : Bool) :
    List FlockStruct → FlockScan
  | [] => .insertEnd
  | e :: r =>
    if flockEnd e < req.start then flockScanGo req lockEnd haveMark r
    else
      let haveMark' := haveMark || decide (req.start ≤ e.start)
      if lockEnd < e.start then
        if haveMark' then .insertEarly else .panicNil
      else if e = req then .identical e
      else if e.type = FlockType.wrlck ∨ req.type = FlockType.wrlck then
        .conflict e
      else flockScanGo req lockEnd haveMark' r

/-- Insertion of the request before insertElm, the first non-skipped element
whose start is at least the request's start, or at the back when there is no
such element (lines 271-273, 277, 294-299). -/
def flockInsert (req : FlockStruct) : List FlockStruct → List FlockStruct
  | [] => [req]
  | e :: r =>
    if req.start ≤ flockEnd e ∧ req.start ≤ e.start then req :: e :: r
    else e :: flockInsert req r

/-- The unlock scan of Flock (lines 233-245): remove the first record whose
Pid, Start and Len all match (the Type field is not compared); none when no
record matches (Go returns NoDataError). -/
def flockUnlock (req : FlockStruct) : List FlockStruct → Option (List FlockStruct)
  | [] => none
  | e :: r =>
    if e.pid = req.pid ∧ e.start = req.start ∧ e.len = req.len then some r
    else
      match flockUnlock req r with
      | some r' => some (e :: r')
      | none => none

/-- Result of the F_SETLK command. -/
inductive FlockResult where
  | granted (f : FlockStruct)
  | tryAgain (conflict : FlockStruct)
  | noData
  | removed
deriving DecidableEq, Repr

/-- fs.Flock for lockCmd = F_SETLK, from the point where the per-inode lock
list has been fetched (lines 233-306); the preceding inode read-lock and the
F_OK / R_OK access checks are orthogonal to the list semantics and are taken
as passed.  none models the Go nil-mark InsertBefore panic reachable only
with a request whose uint64 Start + Len wraps.  The pair returned is the
(outFlockStruct-like) result and the new list. -/
def flockSetLk (lst : List FlockStruct) (req : FlockStruct) :
    Option (FlockResult × List FlockStruct) :=
  if req.type = FlockType.unlck then
    match flockUnlock req lst with
    | some l' => some (.removed, l')
    | none => some (.noData, lst)
  else
    match flockScanGo req (flockEnd req) false lst with
    | .conflict e => some (.tryAgain e, lst)
    | .identical e => some (.granted e, lst)
    | .insertEarly => some (.granted req, flockInsert req lst)
    | .panicNil => none
    | .insertEnd => some (.granted req, flockInsert req lst)

/-- The overlap test exactly as the scan applies it to an existing record
`e` against the request `q`: `e` is not skipped (its end is not below the
request's start) and does not stop the scan (its start does not exceed the
request's end).  The predicate is symmetric in its two arguments. -/
def flockOverlaps (e q : FlockStruct) : Prop :=
  q.start ≤ flockEnd e ∧ e.start ≤ flockEnd q

/-- Either of two records is a write lock. -/
def eitherWrite (e q : FlockStruct) : Prop :=
  e.type = FlockType.wrlck ∨ q.type = FlockType.wrlck

/-- A record kept by Flock: its uint64 fields are in range and the sum
Start + Len does not wrap (every insertion the middleware performs satisfies
this; Len = 0 encodes to-end-of-file). -/
def flockRecOk (f : FlockStruct) : Prop :=
  f.start < U64 ∧ (f.len = 0 ∨ f.start + f.len < U64)

/-- Well-formedness of a per-inode lock list as Flock maintains it: every
record is in range, the list is ordered by Start, and no two records overlap
with either of them a write lock (a state in which a conflicting pair
coexists is never produced, since the losing insertion would have received
TryAgain). -/
def flockListWF (l : List FlockStruct) : Prop :=
  (∀ f ∈ l, flockRecOk f) ∧
  l.Pairwise (fun a b => a.start ≤ b.start) ∧
  l.Pairwise (fun a b => ¬ (flockOverlaps a b ∧ eitherWrite a b))

/-! ## Error kinds (blunder) used by the embedded fs operations -/

/-- The blunder error kinds the embedded operations produce or pass along.
`collab e` carries an arbitrary error returned by a collaborator call. -/
inductive ErrK where
  | notFound
  | permDenied
  | tryAgain
  | nameTooLong
  | notDir
  | notFile
  | noData
  | isDirKind
  | collab (e : Nat)
deriving DecidableEq, Repr

/-! ## fs.Create (api_internal.go lines 96-152) -/

/-- The collaborator outcomes a run of fs.Create observes, one per call the
code can make: inode.CreateFile, the dlm initInodeLock/WriteLock pair, the
two Access checks, inode.Link, and inode.Destroy (whose own failure the code
only logs). -/
structure CreateOracle where
  createFile : Except ErrK Nat
  initLock : Except ErrK Unit
  writeLock : Except ErrK Unit
  accessFOK : Bool
  accessWX : Bool
  link : Except ErrK Unit
  destroyFails : Bool
deriving Repr

/-- fs.Create (lines 96-152), recording which inodes it passes to
inode.Destroy.  validateBaseName (lines 2417-2427) fails with NameTooLong
when the basename exceeds FileNameMax = 255 bytes.  After the new file inode
exists, every failing step destroys it and returns that step's error; a
failure of the Destroy itself (destroyFails) is logged and the original
error is returned unchanged.  The deferred dirInodeLock.Unlock covers the
lock, not the inode lifecycle, and is not part of this model's output. -/
def fsCreate (basenameLen : Nat) (o : CreateOracle) :
    Except ErrK Nat × List Nat :=
  if 255 < basenameLen then (.error .nameTooLong, [])
  else
    match o.createFile with
    | .error e => (.error e, [])
    | .ok fileInodeNumber =>
      match o.initLock with
      | .error e => (.error e, [fileInodeNumber])
      | .ok _ =>
        match o.writeLock with
        | .error e => (.error e, [fileInodeNumber])
        | .ok _ =>
          if ¬ o.accessFOK then (.error .notFound, [fileInodeNumber])
          else if ¬ o.accessWX then (.error .permDenied, [fileInodeNumber])
          else
            match o.link with
            | .error e => (.error e, [fileInodeNumber])
            | .ok _ => (.ok fileInodeNumber, [])

/-! ## fs.MiddlewarePost (api_internal.go lines 1199-1227) -/

/-- Result kind of MiddlewarePost. -/
inductive PostResult where
  | ok
  | tryAgain
deriving DecidableEq, Repr

/-- fs.MiddlewarePost (lines 1199-1227) from the point where the target
inode is resolved and write-locked: `stream` is the current content of the
MiddlewareStream (none when GetStream reports StreamNotFound, which the code
lets through at line 1213).  When the stream exists and its bytes differ
from oldMetaData the code returns TryAgain leaving the stream alone
(line 1218); in every other case it reaches PutStream and installs
newMetaData.  GetStream failures other than StreamNotFound and PutStream
failures propagate a collaborator error unchanged and are orthogonal to the
compare-and-swap semantics modelled here.  Returns the result and the
stream's new content. -/
def middlewarePost (stream : Option (List Nat)) (oldMetaData newMetaData : List Nat) :
    PostResult × Option (List Nat) :=
  match stream with
  | some existingStreamData =>
    if existingStreamData ≠ oldMetaData then (.tryAgain, some existingStreamData)
    else (.ok, some newMetaData)
  | none => (.ok, some newMetaData)

/-! ## fs.Validate (api_internal.go lines 2370-2378) -/

/-- fs.Validate exactly as written: its body is
`err = mS.Validate(inodeNumber)` — the method invokes itself, not the inode
collaborator, so the recursion never bottoms out.  The Lean embedding is
fuel-indexed: `some r` means the call returned `r` within `fuel` nested
calls and `none` means it did not return. -/
def fsValidate : Nat → Nat → Option (Except ErrK Unit)
  | 0, _ => none
  | fuel + 1, inodeNumber =>
    match fsValidate fuel inodeNumber with
    | none => none
    | some (.error e) => some (.error e)
    | some (.ok _) => some (.ok ())

/-! ## fs.Rename (api_internal.go lines 1629-1700) -/

/-- Lock events a run of fs.Rename emits, in program order. -/
inductive LockEvent where
  | wlock (ino : Nat)
  | trylock (ino : Nat)
  | unlockEv (ino : Nat)
deriving DecidableEq, Repr

/-- Access masks fs.Rename checks, in the order checked. -/
inductive AccessMask where
  | fok
  | wxok
deriving DecidableEq, Repr

/-- fs.Rename (lines 1629-1700) from the retryLock label on, emitting its
lock and unlock calls as events.  `access ino m` is the collaborator's
Access verdict; `tryOk k` tells whether the k-th TryWriteLock on the
destination succeeds (false = TryAgain, sending the loop back to retryLock
after releasing the source lock); `fuel` bounds the retry loop, none
meaning it had not exited within fuel iterations.  Blocking WriteLock and
Move are taken as succeeding; the code has no deferred unlock, so exactly
the explicit Unlock calls appear as events. -/
def fsRename (fuel : Nat) (srcDirInodeNumber dstDirInodeNumber : Nat)
    (access : Nat → AccessMask → Bool) (tryOk : Nat → Bool) (attempt : Nat)
    (events : List LockEvent) : Option (Except ErrK Unit × List LockEvent) :=
  match fuel with
  | 0 => none
  | fuel + 1 =>
    let srcAndDestDirsAreSame := srcDirInodeNumber = dstDirInodeNumber
    let events := events ++ [.wlock srcDirInodeNumber]
    if ¬ access srcDirInodeNumber .fok then
      some (.error .notFound, events)
    else if ¬ access srcDirInodeNumber .wxok then
      some (.error .permDenied, events)
    else if srcAndDestDirsAreSame then
      some (.ok (), events ++ [.unlockEv srcDirInodeNumber])
    else if ¬ tryOk attempt then
      fsRename fuel srcDirInodeNumber dstDirInodeNumber access tryOk
        (attempt + 1) (events ++ [.trylock dstDirInodeNumber, .unlockEv srcDirInodeNumber])
    else
      let events := events ++ [.trylock dstDirInodeNumber]
      if ¬ access dstDirInodeNumber .fok then
        some (.error .notFound, events ++ [.unlockEv srcDirInodeNumber])
      else if ¬ access dstDirInodeNumber .wxok then
        some (.error .permDenied, events ++ [.unlockEv srcDirInodeNumber])
      else
        some (.ok (),
          events ++ [.unlockEv dstDirInodeNumber, .unlockEv srcDirInodeNumber])

/-! ## fs.MiddlewarePutComplete, obstacle displacement (lines 1402-1463) -/

/-- Inode-affecting events the tail of MiddlewarePutComplete emits. -/
inductive PutEvent where
  | removeObstacle (ino : Nat)
  | finalLink (dir : Nat) (name : Nat) (ino : Nat)
  | relink (dir : Nat) (name : Nat) (ino : Nat)
  | destroy (ino : Nat)
deriving DecidableEq, Repr

/-- Collaborator outcomes for the tail of MiddlewarePutComplete. -/
structure PutCompleteOracle where
  lookupBase : Except ErrK Nat
  removeOk : Except ErrK Unit
  finalLinkOk : Except ErrK Unit
deriving Repr

/-- The tail of fs.MiddlewarePutComplete (lines 1402-1463): obstacle
detection, final link, relink-on-failure, destroy-on-success.  Basenames are
numbered.  `dirsEmpty` is `0 == len(dirs)`.  The Go code declares an outer
`var obstacleInodeNumber inode.InodeNumber` (zero-valued, line 1403) and then
inside the branch uses the short declaration
`obstacleInodeNumber, err1 := mS.VolumeHandle.Lookup(...)` (line 1405),
which creates a NEW inner variable shadowing the outer one; the lock and the
obstacle-removal helper read the inner variable, while the relink (line 1447)
and the destroy (line 1459) sit outside the branch and read the outer
variable, which is still 0.  The embedding mirrors that scoping exactly. -/
def putCompleteFinish (dirsEmpty : Bool) (dirInodeNumber vObjectBaseName : Nat)
    (highestUnlinkedName highestUnlinkedInodeNumber : Nat)
    (o : PutCompleteOracle) : Except ErrK Unit × List PutEvent :=
  let obstacleInodeNumberOuter : Nat := 0
  let step1 : Except ErrK (Bool × List PutEvent) :=
    if dirsEmpty then
      match o.lookupBase with
      | .error .notFound => .ok (false, [])
      | .error e => .error e
      | .ok obstacleInodeNumberInner =>
        match o.removeOk with
        | .error e => .error e
        | .ok _ => .ok (true, [.removeObstacle obstacleInodeNumberInner])
    else .ok (false, [])
  match step1 with
  | .error e => (.error e, [])
  | .ok (haveObstacle, events) =>
    match o.finalLinkOk with
    | .error e =>
      let events := events ++
        [.finalLink dirInodeNumber highestUnlinkedName highestUnlinkedInodeNumber]
      if haveObstacle then
        (.error e, events ++
          [.relink dirInodeNumber vObjectBaseName obstacleInodeNumberOuter])
      else (.error e, events)
    | .ok _ =>
      let events := events ++
        [.finalLink dirInodeNumber highestUnlinkedName highestUnlinkedInodeNumber]
      if haveObstacle then
        (.ok (), events ++ [.destroy obstacleInodeNumberOuter])
      else (.ok (), events)

/-! ## fs.MiddlewareCoalesce (api_internal.go lines 650-776) -/

/-- A path as a byte string. -/
abbrev GoPath := List Char

/-- path/filepath.Split: split after the final slash; the dir part keeps its
trailing slash and is empty exactly when the path has no slash at all. -/
def filepathSplit (p : GoPath) : GoPath × GoPath :=
  match p.reverse.findIdx? (fun c => c = '/') with
  | none => ([], p)
  | some k => (p.take (p.length - k), p.drop (p.length - k))

/-- Events MiddlewareCoalesce emits, in program order: lock acquisitions and
every examination of an element or the destination through the
collaborator. -/
inductive CoalEvent where
  | lockRoot
  | resolvePath (p : GoPath)
  | lookupEv (dir : Nat) (name : GoPath)
  | lockFile (ino : Nat)
  | getMeta (ino : Nat)
  | coalesceCall (destDir : Nat) (destName : GoPath)
deriving DecidableEq, Repr

/-- Inode types as fs sees them. -/
inductive InodeType where
  | fileType
  | dirType
  | symlinkType
deriving DecidableEq, Repr

/-- Collaborator outcomes for MiddlewareCoalesce: path resolution for write,
directory-entry lookup, metadata (inode type) fetch, and whether the file's
write lock is already held by this caller. -/
structure CoalOracle where
  resolveForWrite : GoPath → Except ErrK (Nat × InodeType)
  lookupEntry : Nat → GoPath → Except ErrK Nat
  inodeTypeOf : Nat → Except ErrK InodeType

/-- The per-element loop of MiddlewareCoalesce (lines 719-768): resolve the
dir part, check it is a directory, look up the file, write-lock it unless
this caller already holds it, and check it is an ordinary file. -/
def coalesceElements (o : CoalOracle) (locked : List Nat) :
    List (GoPath × GoPath) → Except ErrK Unit × List CoalEvent
  | [] => (.ok (), [])
  | (dirName, fileName) :: rest =>
    match o.resolveForWrite dirName with
    | .error e => (.error e, [.resolvePath dirName])
    | .ok (dirInodeNumber, dirInodeType) =>
      if dirInodeType ≠ InodeType.dirType then
        (.error .notDir, [.resolvePath dirName])
      else
        match o.lookupEntry dirInodeNumber fileName with
        | .error e =>
          (.error e, [.resolvePath dirName, .lookupEv dirInodeNumber fileName])
        | .ok fileInodeNumber =>
          let acc := [CoalEvent.resolvePath dirName,
                      .lookupEv dirInodeNumber fileName]
          let acc := if fileInodeNumber ∈ locked then acc
                     else acc ++ [.lockFile fileInodeNumber]
          match o.inodeTypeOf fileInodeNumber with
          | .error e => (.error e, acc ++ [.getMeta fileInodeNumber])
          | .ok t =>
            if t ≠ InodeType.fileType then
              (.error .notFile, acc ++ [.getMeta fileInodeNumber])
            else
              let out := coalesceElements o (fileInodeNumber :: locked) rest
              (out.1, acc ++ [.getMeta fileInodeNumber] ++ out.2)

/-- The element-path validation loop of MiddlewareCoalesce (lines 664-680):
split each path; a path whose dir part is empty names a file directly in the
root directory and is rejected; otherwise the dir part loses its trailing
slash. -/
def coalesceSplitElements :
    List GoPath → Except ErrK (List (GoPath × GoPath))
  | [] => .ok []
  | p :: rest =>
    let (dirName, fileName) := filepathSplit p
    if dirName = [] then .error .notDir
    else
      match coalesceSplitElements rest with
      | .error e => .error e
      | .ok l => .ok ((dirName.dropLast, fileName) :: l)

/-- fs.MiddlewareCoalesce (lines 650-776): validate and split every element
path, validate and split the destination path, then (only then) write-lock
the root directory, resolve the destination directory, process the elements,
and invoke the collaborator's Coalesce.  Returns the outcome and the event
trace; no event precedes the two validation phases.  The error for a path in
the root directory is modelled as notDir (the Go code wraps a plain fmt
error). -/
def middlewareCoalesce (o : CoalOracle) (destPath : GoPath)
    (elementPaths : List GoPath) : Except ErrK Unit × List CoalEvent :=
  match coalesceSplitElements elementPaths with
  | .error e => (.error e, [])
  | .ok elementDirAndFileNames =>
    let (destDirName0, destFileName) := filepathSplit destPath
    if destDirName0 = [] then (.error .notDir, [])
    else
      let destDirName := destDirName0.dropLast
      match o.resolveForWrite destDirName with
      | .error e => (.error e, [.lockRoot, .resolvePath destDirName])
      | .ok (destDirInodeNumber, destDirInodeType) =>
        let acc := [CoalEvent.lockRoot, .resolvePath destDirName]
        if destDirInodeType ≠ InodeType.dirType then (.error .notDir, acc)
        else
          let out := coalesceElements o [] elementDirAndFileNames
          match out.1 with
          | .error e => (.error e, acc ++ out.2)
          | .ok _ =>
            (.ok (), acc ++ out.2 ++ [.coalesceCall destDirInodeNumber destFileName])

/-- A queue entry asking for the lock shared. -/
def isSharedReq (r : LocalLockRequest) : Bool :=
  decide (r.requestedState = LockState.sharedState)

/-- The claim's conflict condition on an existing record against a request:
non-identical, overlapping, with either side a write lock. -/
def flockConflict (e req : FlockStruct) : Prop :=
  e ≠ req ∧ flockOverlaps e req ∧ eitherWrite e req

instance (e q : FlockStruct) : Decidable (flockOverlaps e q) :=
  inferInstanceAs (Decidable (q.start ≤ flockEnd e ∧ e.start ≤ flockEnd q))

instance (e q : FlockStruct) : Decidable (eitherWrite e q) :=
  inferInstanceAs (Decidable (_ ∨ _))

instance (e q : FlockStruct) : Decidable (flockConflict e q) :=
  inferInstanceAs (Decidable (_ ∧ _))

instance (f : FlockStruct) : Decidable (flockRecOk f) :=
  inferInstanceAs (Decidable (_ ∧ _))

instance (l : List FlockStruct) : Decidable (flockListWF l) :=
  inferInstanceAs (Decidable (_ ∧ _))

/-! ## Theorems -/

/-- C1: the claim fails on the code.  In the sequence where caller 1 acquires
the lock exclusively, caller 2 queues an exclusive request, and caller 1 then
releases, the release does not remove caller 1 from the owner list (the Go
append inside removeFromListOfOwners never shortens the track's slice), so
after the grant pass hands the lock to caller 2 the track is Exclusive with
owner list [1, 2] — not exactly the one granted caller, and with the
releasing caller still listed. -/
theorem C1_release_leaves_stale_owner :
    unlock (commonLock (commonLock [] 0 1 LockState.exclusiveState).1 0 2
        LockState.exclusiveState).1 0 1 =
      some ([(0, ⟨LockState.exclusiveState, 1, 0, [1, 2], []⟩)], [2]) := by
  decide

/-- C3: fs.Validate never returns for any inode number and any recursion
budget, because its body calls fs.Validate itself rather than delegating to
the inode collaborator. -/
theorem C3_validate_never_returns (fuel inodeNumber : Nat) :
    fsValidate fuel inodeNumber = none := by
  induction fuel with
  | zero => rfl
  | succ k ih => simp [fsValidate, ih]

/-- C4: the claim fails on the code.  With an obstacle found at inode 17,
the relink attempted after a final-link failure and the destroy performed
after a successful final link both name inode 0 — the outer, never-assigned
obstacleInodeNumber — not 17, because the short declaration inside the
branch shadows the outer variable. -/
theorem C4_relink_and_destroy_use_shadowed_zero :
    putCompleteFinish true 5 7 7 42
        ⟨Except.ok 17, Except.ok (), Except.error (.collab 3)⟩ =
      (.error (.collab 3),
        [.removeObstacle 17, .finalLink 5 7 42, .relink 5 7 0]) ∧
    putCompleteFinish true 5 7 7 42 ⟨Except.ok 17, Except.ok (), Except.ok ()⟩ =
      (.ok (), [.removeObstacle 17, .finalLink 5 7 42, .destroy 0]) :=
  ⟨rfl, rfl⟩

/-- C5: the claim fails on the code.  When the F_OK check on the source
directory fails, and likewise when the W_OK|X_OK check fails, fs.Rename
returns with the source directory's write lock still held: the event trace
ends at the write lock with no matching unlock (the function has no deferred
unlock and these two returns skip the explicit ones). -/
theorem C5_rename_leaks_source_lock_on_access_failure :
    fsRename 5 1 2 (fun _ _ => false) (fun _ => true) 0 [] =
      some (.error .notFound, [.wlock 1]) ∧
    fsRename 5 1 2 (fun _ m => m = AccessMask.fok) (fun _ => true) 0 [] =
      some (.error .permDenied, [.wlock 1]) :=
  ⟨rfl, rfl⟩

/-- C8, counterexample: when the middleware stream is absent and oldMetadata
is the non-empty byte string [1], MiddlewarePost does not fail with TryAgain
as the claim requires — the absent stream certainly does not byte-equal [1]
— but installs the new metadata and succeeds, because the equality guard is
conditioned on GetStream having returned without error. -/
theorem C8_absent_stream_is_replaced_without_check :
    middlewarePost none [1] [2] = (.ok, some [2]) := by decide

/-- C8, amended: MiddlewarePost fails with TryAgain, leaving the stream
unchanged, exactly when the middleware stream exists and its content does
not byte-equal oldMetadata; when the existing content equals oldMetadata,
and also whenever the stream is absent (regardless of oldMetadata), it
installs newMetadata and succeeds. -/
theorem C8_post_compare_and_swap (stream : Option (List Nat))
    (oldM newM : List Nat) :
    ((middlewarePost stream oldM newM).1 = PostResult.tryAgain ↔
      ∃ s, stream = some s ∧ s ≠ oldM) ∧
    (∀ s, stream = some s → s ≠ oldM →
      middlewarePost stream oldM newM = (.tryAgain, stream)) ∧
    (stream = some oldM → middlewarePost stream oldM newM = (.ok, some newM)) ∧
    (stream = none → middlewarePost stream oldM newM = (.ok, some newM)) := by
  refine ⟨?_, ?_, ?_, ?_⟩
  · constructor
    · intro h
      cases stream with
      | none => simp [middlewarePost] at h
      | some s =>
        by_cases hs : s = oldM
        · simp [middlewarePost, hs] at h
        · exact ⟨s, rfl, hs⟩
    · rintro ⟨s, rfl, hs⟩
      simp [middlewarePost, hs]
  · rintro s rfl hs
    simp [middlewarePost, hs]
  · rintro rfl
    simp [middlewarePost]
  · rintro rfl
    simp [middlewarePost]

/-- C8, witness for the amended theorem at concrete inputs. -/
theorem C8_post_compare_and_swap_witness :
    middlewarePost (some [3]) [1] [2] = (.tryAgain, some [3]) ∧
    middlewarePost (some [1]) [1] [2] = (.ok, some [2]) ∧
    middlewarePost none [1] [2] = (.ok, some [2]) :=
  ⟨(C8_post_compare_and_swap (some [3]) [1] [2]).2.1 [3] rfl (by decide),
   (C8_post_compare_and_swap (some [1]) [1] [2]).2.2.1 rfl,
   (C8_post_compare_and_swap none [1] [2]).2.2.2 rfl⟩

/-- C9: both invariant violations abort.  An unlock whose lock id is not in
the map aborts (the Go code panics at llm.go line 280), and an unlock of a
track with no owners — owner count 0 and an empty owner list — aborts
rather than proceeding with a wrapped counter, because
removeFromListOfOwners cannot find the caller and panics. -/
theorem C9_unlock_aborts_on_violation (m : LockMap) (lockID : LockID)
    (callerID : CallerID) :
    (lookupTrack m lockID = none → unlock m lockID callerID = none) ∧
    (∀ t, lookupTrack m lockID = some t → t.owners = 0 → t.listOfOwners = [] →
      unlock m lockID callerID = none) := by
  constructor
  · intro h
    simp [unlock, h]
  · intro t ht _ hlo
    simp [unlock, ht, hlo, removeFromListOfOwners]

/-- C9, witness: the empty map aborts for lock id 0, and a map holding a
zero-owner track aborts on release. -/
theorem C9_unlock_aborts_witness :
    unlock [] 0 1 = none ∧
    unlock [(0, ⟨LockState.staleState, 0, 0, [], []⟩)] 0 1 = none :=
  ⟨(C9_unlock_aborts_on_violation [] 0 1).1 rfl,
   (C9_unlock_aborts_on_violation [(0, ⟨LockState.staleState, 0, 0, [], []⟩)] 0 1).2
     ⟨LockState.staleState, 0, 0, [], []⟩ rfl rfl rfl⟩

/-- A path with no slash splits to an empty dir part. -/
theorem filepathSplit_of_no_slash (p : GoPath) (h : '/' ∉ p) :
    filepathSplit p = ([], p) := by
  unfold filepathSplit
  have hn : p.reverse.findIdx? (fun c => c = '/') = none := by
    rw [List.findIdx?_eq_none_iff]
    intro x hx
    simp only [decide_eq_false_iff_not]
    intro hxe
    exact h (by simpa [hxe] using List.mem_reverse.mp hx)
  rw [hn]

/-- A path containing a slash splits to a non-empty dir part. -/
theorem filepathSplit_fst_ne_nil (p : GoPath) (h : '/' ∈ p) :
    (filepathSplit p).1 ≠ [] := by
  unfold filepathSplit
  cases hf : p.reverse.findIdx? (fun c => c = '/') with
  | none =>
    have := List.findIdx?_eq_none_iff.mp hf '/' (List.mem_reverse.mpr h)
    simp at this
  | some k =>
    have hk : k < p.reverse.length :=
      (List.findIdx?_eq_some_iff_findIdx_eq.mp hf).1
    rw [List.length_reverse] at hk
    simp only
    rw [Ne, List.take_eq_nil_iff]
    push_neg
    constructor
    · omega
    · rintro rfl; cases h

/-- If some element path has no slash, the element validation loop fails. -/
theorem coalesceSplitElements_err (l : List GoPath) (p : GoPath) (hp : p ∈ l)
    (h : '/' ∉ p) : coalesceSplitElements l = .error .notDir := by
  induction l with
  | nil => cases hp
  | cons q rest ih =>
    rcases List.mem_cons.mp hp with rfl | hmem
    · simp [coalesceSplitElements, filepathSplit_of_no_slash p h]
    · by_cases hq : (filepathSplit q).1 = []
      · simp [coalesceSplitElements, hq]
      · simp [coalesceSplitElements, hq, ih hmem]

/-- If every element path contains a slash, the element validation loop
succeeds. -/
theorem coalesceSplitElements_ok (l : List GoPath) (h : ∀ p ∈ l, '/' ∈ p) :
    ∃ l', coalesceSplitElements l = .ok l' := by
  induction l with
  | nil => exact ⟨[], rfl⟩
  | cons q rest ih =>
    obtain ⟨l', hl'⟩ := ih (fun p hp => h p (List.mem_cons_of_mem q hp))
    have hq := filepathSplit_fst_ne_nil q (h q (List.mem_cons_self q rest))
    refine ⟨((filepathSplit q).1.dropLast, (filepathSplit q).2) :: l', ?_⟩
    simp [coalesceSplitElements, hq, hl']

/-- C10: MiddlewareCoalesce rejects any element path that names a file
directly in the root directory (a path with no parent-directory component,
hence no slash), returning an error with an empty event trace — before any
lock is taken and before any element is examined; it likewise rejects a
destination path in the root directory before any lock is taken. -/
theorem C10_coalesce_rejects_root_paths (o : CoalOracle) (destPath : GoPath)
    (elementPaths : List GoPath) :
    ((∃ p ∈ elementPaths, '/' ∉ p) →
      middlewareCoalesce o destPath elementPaths = (.error .notDir, [])) ∧
    ((∀ p ∈ elementPaths, '/' ∈ p) → '/' ∉ destPath →
      middlewareCoalesce o destPath elementPaths = (.error .notDir, [])) := by
  constructor
  · rintro ⟨p, hp, hs⟩
    unfold middlewareCoalesce
    rw [coalesceSplitElements_err elementPaths p hp hs]
  · intro hall hd
    unfold middlewareCoalesce
    obtain ⟨l', hl'⟩ := coalesceSplitElements_ok elementPaths hall
    rw [hl', filepathSplit_of_no_slash destPath hd]
    simp

/-- C10, witness: a concrete bad element path and a concrete bad destination
path are both rejected with an empty event trace. -/
theorem C10_coalesce_rejects_root_paths_witness :
    middlewareCoalesce
      ⟨fun _ => .error .notFound, fun _ _ => .error .notFound,
        fun _ => .error .notFound⟩
      "c/dest".toList ["c/a".toList, "file".toList] = (.error .notDir, []) ∧
    middlewareCoalesce
      ⟨fun _ => .error .notFound, fun _ _ => .error .notFound,
        fun _ => .error .notFound⟩
      "dest".toList ["c/a".toList] = (.error .notDir, []) :=
  ⟨(C10_coalesce_rejects_root_paths _ _ _).1
      ⟨"file".toList, by decide, by decide⟩,
   (C10_coalesce_rejects_root_paths _ _ _).2 (by decide) (by decide)⟩

/-- C6: after the new file inode exists, every failing step of fs.Create —
lock initialization, write-lock acquisition, the F_OK check, the W_OK|X_OK
check, the Link call — destroys the newly created inode and returns that
step's error, so no orphan inode remains; and whether the Destroy itself
fails has no effect on what the caller sees. -/
theorem C6_create_destroys_orphan (basenameLen : Nat) (o : CreateOracle)
    (n : Nat) (hb : basenameLen ≤ 255) (hc : o.createFile = .ok n) :
    (∀ e, o.initLock = .error e → fsCreate basenameLen o = (.error e, [n])) ∧
    (∀ e, o.initLock = .ok () → o.writeLock = .error e →
      fsCreate basenameLen o = (.error e, [n])) ∧
    (o.initLock = .ok () → o.writeLock = .ok () → o.accessFOK = false →
      fsCreate basenameLen o = (.error .notFound, [n])) ∧
    (o.initLock = .ok () → o.writeLock = .ok () → o.accessFOK = true →
      o.accessWX = false → fsCreate basenameLen o = (.error .permDenied, [n])) ∧
    (∀ e, o.initLock = .ok () → o.writeLock = .ok () → o.accessFOK = true →
      o.accessWX = true → o.link = .error e →
      fsCreate basenameLen o = (.error e, [n])) ∧
    (∀ b, fsCreate basenameLen { o with destroyFails := b } =
      fsCreate basenameLen o) := by
  have hnb : ¬ 255 < basenameLen := by omega
  refine ⟨?_, ?_, ?_, ?_, ?_, fun b => rfl⟩
  · intro e h1
    simp [fsCreate, hnb, hc, h1]
  · intro e h1 h2
    simp [fsCreate, hnb, hc, h1, h2]
  · intro h1 h2 h3
    simp [fsCreate, hnb, hc, h1, h2, h3]
  · intro h1 h2 h3 h4
    simp [fsCreate, hnb, hc, h1, h2, h3, h4]
  · intro e h1 h2 h3 h4 h5
    simp [fsCreate, hnb, hc, h1, h2, h3, h4, h5]

/-- C6, witness: each failure case evaluated at a concrete oracle. -/
theorem C6_create_destroys_orphan_witness :
    fsCreate 4 ⟨.ok 9, .error (.collab 1), .ok (), true, true, .ok (), true⟩ =
      (.error (.collab 1), [9]) ∧
    fsCreate 4 ⟨.ok 9, .ok (), .error (.collab 2), true, true, .ok (), false⟩ =
      (.error (.collab 2), [9]) ∧
    fsCreate 4 ⟨.ok 9, .ok (), .ok (), false, true, .ok (), true⟩ =
      (.error .notFound, [9]) ∧
    fsCreate 4 ⟨.ok 9, .ok (), .ok (), true, false, .ok (), true⟩ =
      (.error .permDenied, [9]) ∧
    fsCreate 4 ⟨.ok 9, .ok (), .ok (), true, true, .error (.collab 3), true⟩ =
      (.error (.collab 3), [9]) :=
  ⟨(C6_create_destroys_orphan 4 _ 9 (by decide) rfl).1 _ rfl,
   (C6_create_destroys_orphan 4 _ 9 (by decide) rfl).2.1 _ rfl rfl,
   (C6_create_destroys_orphan 4 _ 9 (by decide) rfl).2.2.1 rfl rfl rfl,
   (C6_create_destroys_orphan 4 _ 9 (by decide) rfl).2.2.2.1 rfl rfl rfl rfl,
   (C6_create_destroys_orphan 4 _ 9 (by decide) rfl).2.2.2.2.1 _ rfl rfl rfl rfl rfl⟩


/-- The grant loop starting from a shared state grants exactly the leading
run of shared requests, leaves the rest of the queue untouched, and keeps
the state shared. -/
theorem processLocalQLoop_shared_run (q : List LocalLockRequest) :
    ∀ c : TrackCore, c.state = LockState.sharedState →
    (∀ x ∈ q, x.requestedState = LockState.sharedState ∨
      x.requestedState = LockState.exclusiveState) →
    c.owners + q.length < U64 →
    processLocalQLoop c q =
      (⟨LockState.sharedState,
        c.owners + (q.takeWhile isSharedReq).length,
        c.listOfOwners ++ (q.takeWhile isSharedReq).map
          (fun x => x.lockCallerID)⟩,
       q.dropWhile isSharedReq,
       (q.takeWhile isSharedReq).map (fun x => x.lockCallerID)) := by
  induction q with
  | nil =>
    intro c hst _ _
    simp [processLocalQLoop, List.takeWhile, List.dropWhile]
    cases c
    simp_all
  | cons x rest ih =>
    intro c hst hwf hbound
    rcases hwf x (List.mem_cons_self x rest) with hx | hx
    · have hxs : isSharedReq x = true := by simp [isSharedReq, hx]
      have hmod : (c.owners + 1) % U64 = c.owners + 1 := by
        apply Nat.mod_eq_of_lt
        simp [List.length_cons] at hbound
        omega
      have := ih ⟨LockState.sharedState, c.owners + 1,
          c.listOfOwners ++ [x.lockCallerID]⟩ rfl
        (fun y hy => hwf y (List.mem_cons_of_mem x hy))
        (by simp [List.length_cons] at hbound ⊢; omega)
      simp only [processLocalQLoop, hx, grantAndSignal]
      rw [hst] at *
      simp only [hmod]
      rw [this]
      simp [List.takeWhile_cons, List.dropWhile_cons, hxs, hx, isSharedReq]
      omega
    · have hxs : isSharedReq x = false := by simp [isSharedReq, hx]
      simp only [processLocalQLoop, hx, hst]
      simp [List.takeWhile_cons, List.dropWhile_cons, hxs]
      cases c
      simp_all

/-- C2: the grant pass over the FIFO wait queue.  (1) A write request at the
head is granted exactly when the state is Stale: the state becomes
Exclusive, only that waiter is granted, and the remaining queue is left as
it was.  (2) A write request at the head while the state is Shared ends the
pass with the track unchanged: that writer and every subsequent waiter,
read requests included, stay queued.  (3) A read request at the head while
the state is Stale or Shared is granted along with the whole leading run of
read requests, the state becomes Shared, and the rest of the queue (headed
by a write request, if non-empty) stays queued. -/
theorem C2_grant_pass (t : LocalLockTrack) (r : LocalLockRequest)
    (q : List LocalLockRequest) :
    (t.waitReqQ = r :: q → r.requestedState = LockState.exclusiveState →
      t.state = LockState.staleState →
      processLocalQ t =
        ({ t with
            state := LockState.exclusiveState,
            owners := (t.owners + 1) % U64,
            listOfOwners := t.listOfOwners ++ [r.lockCallerID],
            waitReqQ := q },
          [r.lockCallerID])) ∧
    (t.waitReqQ = r :: q → r.requestedState = LockState.exclusiveState →
      t.state = LockState.sharedState →
      processLocalQ t = (t, [])) ∧
    (t.waitReqQ = r :: q → r.requestedState = LockState.sharedState →
      (t.state = LockState.staleState ∨ t.state = LockState.sharedState) →
      (∀ x ∈ q, x.requestedState = LockState.sharedState ∨
        x.requestedState = LockState.exclusiveState) →
      t.owners + t.waitReqQ.length < U64 →
      processLocalQ t =
        ({ t with
            state := LockState.sharedState,
            owners := t.owners + ((r :: q).takeWhile isSharedReq).length,
            listOfOwners := t.listOfOwners ++
              ((r :: q).takeWhile isSharedReq).map (fun x => x.lockCallerID),
            waitReqQ := (r :: q).dropWhile isSharedReq },
          ((r :: q).takeWhile isSharedReq).map (fun x => x.lockCallerID))) := by
  refine ⟨?_, ?_, ?_⟩
  · intro hq hr hst
    simp [processLocalQ, hq, hst, processLocalQLoop, hr, grantAndSignal]
  · intro hq hr hst
    obtain ⟨st, ow, wa, lo, wq⟩ := t
    simp only at hq hst
    subst hq hst
    simp [processLocalQ, processLocalQLoop, hr]
  · intro hq hr hst hwf hbound
    obtain ⟨st, ow, wa, lo, wq⟩ := t
    simp only at hq hst hbound ⊢
    subst hq
    rw [List.length_cons] at hbound
    have hrs : isSharedReq r = true := by simp [isSharedReq, hr]
    have hstne : ¬ st = LockState.exclusiveState := by
      rcases hst with h | h <;> simp [h]
    have hmod : (ow + 1) % U64 = ow + 1 := Nat.mod_eq_of_lt (by omega)
    have hrun := processLocalQLoop_shared_run q
      ⟨LockState.sharedState, ow + 1, lo ++ [r.lockCallerID]⟩
      rfl hwf (by simp only; omega)
    have hloop : processLocalQLoop ⟨st, ow, lo⟩ (r :: q) =
        (⟨LockState.sharedState,
          ow + ((r :: q).takeWhile isSharedReq).length,
          lo ++ ((r :: q).takeWhile isSharedReq).map (fun x => x.lockCallerID)⟩,
         (r :: q).dropWhile isSharedReq,
         ((r :: q).takeWhile isSharedReq).map (fun x => x.lockCallerID)) := by
      simp only [processLocalQLoop, hr, grantAndSignal, hmod]
      rw [hrun]
      simp [List.takeWhile_cons, List.dropWhile_cons, hrs, hr, isSharedReq]
      omega
    simp [processLocalQ, hstne, hloop]

/-- C2, witness: the three cases at concrete tracks. -/
theorem C2_grant_pass_witness :
    processLocalQ ⟨LockState.staleState, 0, 0, [], [⟨LockState.exclusiveState, 7⟩,
        ⟨LockState.sharedState, 8⟩]⟩ =
      (⟨LockState.exclusiveState, 1, 0, [7], [⟨LockState.sharedState, 8⟩]⟩, [7]) ∧
    processLocalQ ⟨LockState.sharedState, 1, 0, [5], [⟨LockState.exclusiveState, 7⟩,
        ⟨LockState.sharedState, 8⟩]⟩ =
      (⟨LockState.sharedState, 1, 0, [5], [⟨LockState.exclusiveState, 7⟩,
        ⟨LockState.sharedState, 8⟩]⟩, []) ∧
    processLocalQ ⟨LockState.staleState, 0, 0, [], [⟨LockState.sharedState, 7⟩,
        ⟨LockState.sharedState, 8⟩, ⟨LockState.exclusiveState, 9⟩,
        ⟨LockState.sharedState, 10⟩]⟩ =
      (⟨LockState.sharedState, 2, 0, [7, 8], [⟨LockState.exclusiveState, 9⟩,
        ⟨LockState.sharedState, 10⟩]⟩, [7, 8]) := by
  refine ⟨?_, ?_, ?_⟩
  · have h := (C2_grant_pass ⟨LockState.staleState, 0, 0, [],
      [⟨LockState.exclusiveState, 7⟩, ⟨LockState.sharedState, 8⟩]⟩
      ⟨LockState.exclusiveState, 7⟩ [⟨LockState.sharedState, 8⟩]).1 rfl rfl rfl
    rw [h]
    decide
  · exact (C2_grant_pass ⟨LockState.sharedState, 1, 0, [5],
      [⟨LockState.exclusiveState, 7⟩, ⟨LockState.sharedState, 8⟩]⟩
      ⟨LockState.exclusiveState, 7⟩ [⟨LockState.sharedState, 8⟩]).2.1 rfl rfl rfl
  · have h := (C2_grant_pass ⟨LockState.staleState, 0, 0, [],
      [⟨LockState.sharedState, 7⟩, ⟨LockState.sharedState, 8⟩,
        ⟨LockState.exclusiveState, 9⟩, ⟨LockState.sharedState, 10⟩]⟩
      ⟨LockState.sharedState, 7⟩ [⟨LockState.sharedState, 8⟩,
        ⟨LockState.exclusiveState, 9⟩, ⟨LockState.sharedState, 10⟩]).2.2 rfl rfl
      (Or.inl rfl) (by decide) (by decide)
    rw [h]
    decide


/-- A record with in-range fields ends at or after its own start. -/
theorem start_le_flockEnd (f : FlockStruct) (h : flockRecOk f) :
    f.start ≤ flockEnd f := by
  have h1 := h.1
  unfold flockEnd
  by_cases h0 : f.len = 0
  · rw [if_pos h0]
    unfold U64 at h1 ⊢
    omega
  · rw [if_neg h0]
    rcases h.2 with h2 | h2
    · exact absurd h2 h0
    · rw [Nat.mod_eq_of_lt h2]
      omega

/-- When the list holds a conflicting record, the scan stops at a
conflicting record and reports it. -/
theorem flockScanGo_conflict (req : FlockStruct) (hok : flockRecOk req) :
    ∀ (l : List FlockStruct) (haveMark : Bool),
    l.Pairwise (fun a b => a.start ≤ b.start) →
    l.Pairwise (fun a b => ¬ (flockOverlaps a b ∧ eitherWrite a b)) →
    (∃ e ∈ l, flockConflict e req) →
    ∃ c ∈ l, flockConflict c req ∧
      flockScanGo req (flockEnd req) haveMark l = .conflict c := by
  intro l
  induction l with
  | nil =>
    rintro haveMark _ _ ⟨e, he, _⟩
    cases he
  | cons e r ih =>
    rintro haveMark hsort hnc ⟨w, hw, hwc⟩
    have hreqLe : req.start ≤ flockEnd req := start_le_flockEnd req hok
    rw [List.pairwise_cons] at hsort hnc
    by_cases hskip : flockEnd e < req.start
    · have hwr : w ∈ r := by
        rcases List.mem_cons.mp hw with rfl | h
        · exact absurd hwc.2.1.1 (by omega)
        · exact h
      obtain ⟨c, hc, hcc, hscan⟩ :=
        ih haveMark hsort.2 hnc.2 ⟨w, hwr, hwc⟩
      exact ⟨c, List.mem_cons_of_mem e hc, hcc,
        by simp [flockScanGo, hskip, hscan]⟩
    · by_cases hstop : flockEnd req < e.start
      · exfalso
        rcases List.mem_cons.mp hw with rfl | hwr
        · exact absurd hwc.2.1.2 (by omega)
        · have h1 : e.start ≤ w.start := hsort.1 w hwr
          have h2 : w.start ≤ flockEnd req := hwc.2.1.2
          omega
      · by_cases heq : e = req
        · exfalso
          rcases List.mem_cons.mp hw with rfl | hwr
          · exact hwc.1 heq
          · subst heq
            exact hnc.1 w hwr
              ⟨⟨hwc.2.1.2, hwc.2.1.1⟩, hwc.2.2.symm⟩
        · by_cases hconf : e.type = FlockType.wrlck ∨ req.type = FlockType.wrlck
          · refine ⟨e, List.mem_cons_self e r,
              ⟨heq, ⟨by omega, by omega⟩, hconf⟩, ?_⟩
            simp [flockScanGo, hskip, hstop, heq, hconf]
          · have hwr : w ∈ r := by
              rcases List.mem_cons.mp hw with rfl | h
              · exact absurd hwc.2.2 hconf
              · exact h
            obtain ⟨c, hc, hcc, hscan⟩ :=
              ih (haveMark || decide (req.start ≤ e.start)) hsort.2 hnc.2
                ⟨w, hwr, hwc⟩
            exact ⟨c, List.mem_cons_of_mem e hc, hcc,
              by simp only [flockScanGo, if_neg hskip, if_neg hstop,
                if_neg heq, if_neg hconf]; exact hscan⟩

/-- When no conflicting record exists and the request itself is in the list,
the scan reports the identical record. -/
theorem flockScanGo_identical (req : FlockStruct) (hok : flockRecOk req) :
    ∀ (l : List FlockStruct) (haveMark : Bool),
    l.Pairwise (fun a b => a.start ≤ b.start) →
    (∀ e ∈ l, ¬ flockConflict e req) →
    req ∈ l →
    flockScanGo req (flockEnd req) haveMark l = .identical req := by
  intro l
  induction l with
  | nil =>
    intro haveMark _ _ hmem
    cases hmem
  | cons e r ih =>
    intro haveMark hsort hnc hmem
    have hreqLe : req.start ≤ flockEnd req := start_le_flockEnd req hok
    rw [List.pairwise_cons] at hsort
    by_cases hskip : flockEnd e < req.start
    · have hmr : req ∈ r := by
        rcases List.mem_cons.mp hmem with rfl | h
        · omega
        · exact h
      have := ih haveMark hsort.2
        (fun x hx => hnc x (List.mem_cons_of_mem e hx)) hmr
      simp [flockScanGo, hskip, this]
    · by_cases hstop : flockEnd req < e.start
      · exfalso
        rcases List.mem_cons.mp hmem with rfl | hmr
        · omega
        · have := hsort.1 req hmr
          omega
      · by_cases heq : e = req
        · subst heq
          simp [flockScanGo, hskip, hstop]
        · by_cases hconf : e.type = FlockType.wrlck ∨ req.type = FlockType.wrlck
          · exact absurd ⟨heq, ⟨by omega, by omega⟩, hconf⟩
              (hnc e (List.mem_cons_self e r))
          · have hmr : req ∈ r := by
              rcases List.mem_cons.mp hmem with rfl | h
              · exact absurd rfl heq
              · exact h
            have := ih (haveMark || decide (req.start ≤ e.start)) hsort.2
              (fun x hx => hnc x (List.mem_cons_of_mem e hx)) hmr
            simp only [flockScanGo, if_neg hskip, if_neg hstop, if_neg heq,
              if_neg hconf]
            exact this

/-- When no conflicting record exists and the request is not in the list,
the scan ends in one of the two insertion outcomes (never the nil-mark
panic, since the request's start is bounded by its own end). -/
theorem flockScanGo_insert (req : FlockStruct) (hok : flockRecOk req) :
    ∀ (l : List FlockStruct) (haveMark : Bool),
    (∀ e ∈ l, ¬ flockConflict e req) →
    req ∉ l →
    flockScanGo req (flockEnd req) haveMark l = .insertEarly ∨
      flockScanGo req (flockEnd req) haveMark l = .insertEnd := by
  intro l
  induction l with
  | nil =>
    intro haveMark _ _
    right
    rfl
  | cons e r ih =>
    intro haveMark hnc hmem
    have hreqLe : req.start ≤ flockEnd req := start_le_flockEnd req hok
    by_cases hskip : flockEnd e < req.start
    · have := ih haveMark (fun x hx => hnc x (List.mem_cons_of_mem e hx))
        (fun h => hmem (List.mem_cons_of_mem e h))
      rcases this with h | h
      · left
        simp [flockScanGo, hskip, h]
      · right
        simp [flockScanGo, hskip, h]
    · by_cases hstop : flockEnd req < e.start
      · left
        have hm : (haveMark || decide (req.start ≤ e.start)) = true := by
          have : req.start ≤ e.start := by omega
          simp [this]
        simp [flockScanGo, hskip, hstop, hm]
      · by_cases heq : e = req
        · exact absurd (heq ▸ List.mem_cons_self e r) hmem
        · by_cases hconf : e.type = FlockType.wrlck ∨ req.type = FlockType.wrlck
          · exact absurd ⟨heq, ⟨by omega, by omega⟩, hconf⟩
              (hnc e (List.mem_cons_self e r))
          · have := ih (haveMark || decide (req.start ≤ e.start))
              (fun x hx => hnc x (List.mem_cons_of_mem e hx))
              (fun h => hmem (List.mem_cons_of_mem e h))
            rcases this with h | h
            · left
              simp only [flockScanGo, if_neg hskip, if_neg hstop, if_neg heq,
                if_neg hconf]
              exact h
            · right
              simp only [flockScanGo, if_neg hskip, if_neg hstop, if_neg heq,
                if_neg hconf]
              exact h

/-- Inserting the request permutes consing it at the front. -/
theorem flockInsert_perm (req : FlockStruct) (l : List FlockStruct) :
    List.Perm (flockInsert req l) (req :: l) := by
  induction l with
  | nil => exact List.Perm.refl _
  | cons e r ih =>
    by_cases h : req.start ≤ flockEnd e ∧ req.start ≤ e.start
    · simp [flockInsert, h]
    · simp only [flockInsert, if_neg h]
      exact (ih.cons e).trans (List.Perm.swap req e r)

/-- Inserting the request preserves ordering by start. -/
theorem flockInsert_sorted (req : FlockStruct) (l : List FlockStruct)
    (hrec : ∀ f ∈ l, flockRecOk f)
    (hsort : l.Pairwise (fun a b => a.start ≤ b.start)) :
    (flockInsert req l).Pairwise (fun a b => a.start ≤ b.start) := by
  induction l with
  | nil => simp [flockInsert]
  | cons e r ih =>
    rw [List.pairwise_cons] at hsort
    by_cases h : req.start ≤ flockEnd e ∧ req.start ≤ e.start
    · simp only [flockInsert, if_pos h]
      rw [List.pairwise_cons]
      refine ⟨?_, List.pairwise_cons.mpr hsort⟩
      intro b hb
      rcases List.mem_cons.mp hb with rfl | hbr
      · exact h.2
      · exact le_trans h.2 (hsort.1 b hbr)
    · simp only [flockInsert, if_neg h]
      rw [List.pairwise_cons]
      constructor
      · intro b hb
        rcases List.mem_cons.mp ((flockInsert_perm req r).mem_iff.mp hb)
          with rfl | hbr
        · have hre : e.start ≤ flockEnd e :=
            start_le_flockEnd e (hrec e (List.mem_cons_self e r))
          by_cases hb2 : b.start ≤ e.start
          · exact absurd ⟨by omega, hb2⟩ h
          · omega
        · exact hsort.1 b hbr
      · exact ih (fun f hf => hrec f (List.mem_cons_of_mem e hf)) hsort.2

/-- C7: for a Flock F_SETLK lock request against a well-formed per-inode
lock list, the request fails with TryAgain — reporting a conflicting record
and leaving the list unchanged — exactly when the list holds a non-identical
record that overlaps the requested range (records ending below the new
start are skipped; length 0 encodes the MAX_UINT64 endpoint) with either
side a write lock; a record identical to the request is returned
idempotently with no insertion; and otherwise the request is inserted in
start order (the new list is a permutation of the old plus the request,
still sorted by start) and the request is granted. -/
theorem C7_flock_lock_request (l : List FlockStruct) (req : FlockStruct)
    (hwf : flockListWF l) (hok : flockRecOk req)
    (hty : req.type ≠ FlockType.unlck) :
    ((∃ e ∈ l, flockConflict e req) →
      ∃ c ∈ l, flockConflict c req ∧
        flockSetLk l req = some (.tryAgain c, l)) ∧
    ((∀ e ∈ l, ¬ flockConflict e req) → req ∈ l →
      flockSetLk l req = some (.granted req, l)) ∧
    ((∀ e ∈ l, ¬ flockConflict e req) → req ∉ l →
      flockSetLk l req = some (.granted req, flockInsert req l) ∧
      (flockInsert req l).Pairwise (fun a b => a.start ≤ b.start) ∧
      List.Perm (flockInsert req l) (req :: l)) ∧
    ((∃ c res, flockSetLk l req = some (.tryAgain c, res)) ↔
      ∃ e ∈ l, flockConflict e req) := by
  obtain ⟨hrec, hsort, hnc⟩ := hwf
  have main1 : (∃ e ∈ l, flockConflict e req) →
      ∃ c ∈ l, flockConflict c req ∧
        flockSetLk l req = some (.tryAgain c, l) := by
    intro hex
    obtain ⟨c, hc, hcc, hscan⟩ :=
      flockScanGo_conflict req hok l false hsort hnc hex
    exact ⟨c, hc, hcc, by simp [flockSetLk, hty, hscan]⟩
  have main2 : (∀ e ∈ l, ¬ flockConflict e req) → req ∈ l →
      flockSetLk l req = some (.granted req, l) := by
    intro hno hmem
    have hscan := flockScanGo_identical req hok l false hsort hno hmem
    simp [flockSetLk, hty, hscan]
  have main3 : (∀ e ∈ l, ¬ flockConflict e req) → req ∉ l →
      flockSetLk l req = some (.granted req, flockInsert req l) ∧
      (flockInsert req l).Pairwise (fun a b => a.start ≤ b.start) ∧
      List.Perm (flockInsert req l) (req :: l) := by
    intro hno hmem
    refine ⟨?_, flockInsert_sorted req l hrec hsort, flockInsert_perm req l⟩
    rcases flockScanGo_insert req hok l false hno hmem with h | h <;>
      simp [flockSetLk, hty, h]
  refine ⟨main1, main2, main3, ?_⟩
  constructor
  · rintro ⟨c, res, hres⟩
    by_cases hex : ∃ e ∈ l, flockConflict e req
    · exact hex
    · exfalso
      push_neg at hex
      by_cases hmem : req ∈ l
      · rw [main2 hex hmem] at hres
        simp at hres
      · rw [(main3 hex hmem).1] at hres
        simp at hres
  · intro hex
    obtain ⟨c, _, _, heq⟩ := main1 hex
    exact ⟨c, l, heq⟩

/-- C7, witness: a conflicting write request is refused with the list
unchanged; the identical request is returned idempotently without
insertion; a compatible request is inserted in order and granted. -/
theorem C7_flock_lock_request_witness :
    (∃ c res, flockSetLk [⟨1, 0, 10, .wrlck⟩] ⟨2, 5, 10, .wrlck⟩ =
      some (.tryAgain c, res)) ∧
    flockSetLk [⟨1, 0, 10, .wrlck⟩] ⟨1, 0, 10, .wrlck⟩ =
      some (.granted ⟨1, 0, 10, .wrlck⟩, [⟨1, 0, 10, .wrlck⟩]) ∧
    flockSetLk [⟨1, 20, 5, .wrlck⟩] ⟨2, 5, 10, .wrlck⟩ =
      some (.granted ⟨2, 5, 10, .wrlck⟩,
        [⟨2, 5, 10, .wrlck⟩, ⟨1, 20, 5, .wrlck⟩]) :=
  ⟨(C7_flock_lock_request [⟨1, 0, 10, .wrlck⟩] ⟨2, 5, 10, .wrlck⟩
      (by decide) (by decide) (by decide)).2.2.2.mpr
      ⟨⟨1, 0, 10, .wrlck⟩, by decide, by decide⟩,
   (C7_flock_lock_request [⟨1, 0, 10, .wrlck⟩] ⟨1, 0, 10, .wrlck⟩
      (by decide) (by decide) (by decide)).2.1 (by decide) (by decide),
   ((C7_flock_lock_request [⟨1, 20, 5, .wrlck⟩] ⟨2, 5, 10, .wrlck⟩
      (by decide) (by decide) (by decide)).2.2.1 (by decide) (by decide)).1⟩

/-- The no-write-overlap relation between records is symmetric. -/
theorem noWriteOverlap_symm :
    Symmetric (fun a b : FlockStruct =>
      ¬ (flockOverlaps a b ∧ eitherWrite a b)) := by
  intro a b hab hba
  exact hab ⟨⟨hba.1.2, hba.1.1⟩, hba.2.symm⟩

/-- Supporting invariance for C7: an F_SETLK lock request that returns
leaves the per-inode list well-formed, so flockListWF holds of every list
Flock builds up from the empty list. -/
theorem flockSetLk_preserves_WF (l : List FlockStruct) (req : FlockStruct)
    (hwf : flockListWF l) (hok : flockRecOk req)
    (hty : req.type ≠ FlockType.unlck) (res : FlockResult)
    (l' : List FlockStruct) (h : flockSetLk l req = some (res, l')) :
    flockListWF l' := by
  obtain ⟨hrec, hsort, hnc⟩ := hwf
  by_cases hex : ∃ e ∈ l, flockConflict e req
  · obtain ⟨c, _, _, hscan⟩ :=
      flockScanGo_conflict req hok l false hsort hnc hex
    have heq : flockSetLk l req = some (.tryAgain c, l) := by
      simp [flockSetLk, hty, hscan]
    rw [heq] at h
    simp only [Option.some.injEq, Prod.mk.injEq] at h
    rw [← h.2]
    exact ⟨hrec, hsort, hnc⟩
  · push_neg at hex
    by_cases hmem : req ∈ l
    · have hscan := flockScanGo_identical req hok l false hsort hex hmem
      have heq : flockSetLk l req = some (.granted req, l) := by
        simp [flockSetLk, hty, hscan]
      rw [heq] at h
      simp only [Option.some.injEq, Prod.mk.injEq] at h
      rw [← h.2]
      exact ⟨hrec, hsort, hnc⟩
    · have heq : flockSetLk l req = some (.granted req, flockInsert req l) := by
        rcases flockScanGo_insert req hok l false hex hmem with hs | hs <;>
          simp [flockSetLk, hty, hs]
      rw [heq] at h
      simp only [Option.some.injEq, Prod.mk.injEq] at h
      rw [← h.2]
      refine ⟨?_, flockInsert_sorted req l hrec hsort, ?_⟩
      · intro f hf
        rcases List.mem_cons.mp ((flockInsert_perm req l).mem_iff.mp hf)
          with rfl | hfl
        · exact hok
        · exact hrec f hfl
      · rw [@List.Perm.pairwise_iff FlockStruct
          (fun a b => ¬ (flockOverlaps a b ∧ eitherWrite a b))
          (fun hxy => noWriteOverlap_symm hxy) _ _ (flockInsert_perm req l)]
        rw [List.pairwise_cons]
        refine ⟨?_, hnc⟩
        intro e he
        intro hbad
        have hne : e ≠ req := fun hcontra => hmem (hcontra ▸ he)
        exact hex e he ⟨hne, ⟨hbad.1.2, hbad.1.1⟩, hbad.2.symm⟩
